import Mathlib

/-!
Shallow embedding of `main.py` of the `vl_rtarif_downloader` repository:
a directory-listing scraper with two operations, `download_latest_files`
(fetch an autoindex page, extract the anchors of its first `<pre>` block,
select the last N entries, download the ones not present locally) and
`clean_old_files` (per filename-prefix pattern, keep the K most recently
modified files and delete the rest), driven by a `__main__` loop over
configured targets.

External effects (HTTP, filesystem, clock) are supplied by explicit
environment records; Python exceptions are modelled with `Except`, where
`Except.error` marks an exception that escapes the function uncaught.
-/

namespace VlRtarif

/-- Byte content of a downloaded file. -/
abbrev Content := List Nat

/-- Severity of a log entry, mirroring the logging levels used in main.py. -/
inductive Level where
  | info
  | warning
  | error
deriving Repr, DecidableEq

/-- Log events: one constructor per logger call site in main.py. -/
inductive LogEvent where
  | startUrl
  | createdFolder
  | localCount
  | folderMissing
  | fetchError
  | noPre
  | noLinks
  | willDownload
  | downloadingFile
  | fileDone
  | fileFetchError
  | skipExisting
  | summary
  | separator
  | startClean
  | cleanFolderMissing
  | noMatch
  | nothingToDelete
  | foundOld
  | deletedFile
  | deleteError
  | cleanDone
deriving Repr, DecidableEq

/-- Python exception escaping a function uncaught. -/
inductive PyErr where
  | osError
deriving Repr, DecidableEq

/-- Model of Python's `str.startswith` (and of `String.startsWith`), phrased
on the character lists so that it evaluates inside the kernel. -/
def pyStartsWith (s pre : String) : Bool := pre.data.isPrefixOf s.data

/-- Model of Python's `str.endswith`, phrased on the character lists so that
it evaluates inside the kernel. -/
def pyEndsWith (s suf : String) : Bool := suf.data.isSuffixOf s.data

/-- Model of `os.path.join` on two components (main.py lines 72-73, POSIX
semantics): when the second component is absolute, the first is discarded
entirely. -/
def pathJoin (a b : String) : String :=
  if pyStartsWith b "/" then b
  else if a = "" then b
  else if pyEndsWith a "/" then a ++ b
  else a ++ "/" ++ b

/-- Model of the Python slice `l[-n:]` (main.py line 65). For `n ≥ 1` this is
the last `min (length l) n` elements; for `n = 0` it is `l[0:]`, the whole
list, because `-0 == 0` in Python. -/
def pySliceLast {α : Type} (l : List α) (n : Nat) : List α :=
  if n = 0 then l else l.drop (l.length - n)

/-- Model of the Python slice `l[:-k]` (main.py line 120). For `k ≥ 1` this is
all but the last `k` elements; for `k = 0` it is `l[:0]`, the empty list,
because `-0 == 0` in Python. -/
def pyDropLast {α : Type} (l : List α) (k : Nat) : List α :=
  if k = 0 then [] else l.take (l.length - k)

/-- Parsed HTML node, the granularity at which main.py uses BeautifulSoup. -/
inductive Node where
  | elem (tag : String) (attrs : List (String × String)) (children : List Node)
  | text (s : String)

mutual

/-- Preorder (document-order) listing of a node and its descendants. -/
def preorderNode : Node → List Node
  | .text s => [.text s]
  | .elem t a ch => .elem t a ch :: preorderList ch

/-- Preorder (document-order) listing of a forest of nodes. -/
def preorderList : List Node → List Node
  | [] => []
  | n :: rest => preorderNode n ++ preorderList rest

end

mutual

/-- Model of BeautifulSoup `find`: first node satisfying `p` in document
order, scanning a node and then its subtree. -/
def findNode (p : Node → Bool) : Node → Option Node
  | .text s => if p (.text s) then some (.text s) else none
  | .elem t a ch => if p (.elem t a ch) then some (.elem t a ch) else findList p ch

/-- Model of BeautifulSoup `find` over a forest of nodes. -/
def findList (p : Node → Bool) : List Node → Option Node
  | [] => none
  | n :: rest =>
    match findNode p n with
    | some m => some m
    | none => findList p rest

end

mutual

/-- Model of BeautifulSoup `find_all` scanning a node and its subtree: all
nodes satisfying `p`, in document order. -/
def findAllNode (p : Node → Bool) : Node → List Node
  | .text s => if p (.text s) then [.text s] else []
  | .elem t a ch => (if p (.elem t a ch) then [Node.elem t a ch] else []) ++ findAllList p ch

/-- Model of BeautifulSoup `find_all` over a forest of nodes. -/
def findAllList (p : Node → Bool) : List Node → List Node
  | [] => []
  | n :: rest => findAllNode p n ++ findAllList p rest

end

/-- Descendant nodes of a node in document order (the nodes a BeautifulSoup
tag search scans, the tag itself excluded). -/
def descendants : Node → List Node
  | .elem _ _ ch => preorderList ch
  | .text _ => []

/-- Model of `tag.find_all(...)`: matching descendants of the tag, the tag
itself excluded. -/
def findAllWithin (p : Node → Bool) : Node → List Node
  | .elem _ _ ch => findAllList p ch
  | .text _ => []

/-- Predicate for `soup.find('pre')` (main.py line 52). -/
def isPreTag : Node → Bool
  | .elem t _ _ => t == "pre"
  | .text _ => false

/-- Predicate for `pre_tag.find_all('a', href=True)` (main.py line 58): an
anchor element carrying an `href` attribute. -/
def isAnchorWithHref : Node → Bool
  | .elem t attrs _ => t == "a" && (attrs.lookup "href").isSome
  | .text _ => false

/-- Value of a node's `href` attribute, when present. -/
def hrefOf : Node → Option String
  | .elem _ attrs _ => attrs.lookup "href"
  | .text _ => none

/-- Model of main.py line 58: the `href` of every anchor with an `href`
inside the `<pre>` tag, in document order, the literal parent-directory
reference `../` excluded. -/
def extractLinks (pre : Node) : List String :=
  ((findAllWithin isAnchorWithHref pre).filterMap hrefOf).filter (fun h => h != "../")

/-- Outcome of the streamed GET for one file (main.py lines 77-81). -/
inductive FetchResult where
  | reqError
  | midStream (part : Content)
  | success (content : Content)

/-- External world of one `download_latest_files` call: which filesystem and
HTTP operations succeed and what they return.  `reqError` is a
RequestException raised before the destination file is opened (connection
failure or `raise_for_status`); `midStream part` is a RequestException raised
by `iter_content` after `part` has already been written. -/
structure Env where
  destExists : Bool
  makedirsFails : Bool
  listdirFails : Bool
  page : Except Unit (List Node)
  fileFetch : String → FetchResult
  openFails : String → Bool

/-- Observable state of one `download_latest_files` run: destination-folder
contents (filename with content), URLs for which a file-body GET was issued,
the `downloaded_count` counter, whether some write truncated an existing
file, and the log. -/
structure DlState where
  files : List (String × Content)
  bodyReqs : List String
  downloadedCount : Nat
  overwrote : Bool
  log : List (Level × LogEvent)
deriving Repr, DecidableEq

/-- Filenames of a folder listing, as `os.listdir` returns them. -/
def namesOf (fs : List (String × Content)) : List String := fs.map Prod.fst

/-- Effect of `open(file_path, 'wb')` followed by writing `c`: an existing
file of that name is truncated and replaced, otherwise a new file appears. -/
def setFile (fs : List (String × Content)) (name : String) (c : Content) :
    List (String × Content) :=
  if (namesOf fs).contains name then fs.map (fun p => if p.1 = name then (name, c) else p)
  else fs ++ [(name, c)]

/-- Body of the download loop (main.py lines 70-87) for one candidate.  The
membership test is against `local_files`, the listing snapshot taken before
the loop.  An OSError from `open` is not caught (the except clause at line 84
only catches RequestException), so it escapes as `Except.error`. -/
def processOne (env : Env) (base_url folder : String) (localFiles : List String)
    (st : DlState) (file_name : String) : Except PyErr DlState :=
  if localFiles.contains file_name then
    .ok { st with log := st.log ++ [(.info, .skipExisting)] }
  else
    let file_url := pathJoin base_url file_name
    let log1 := st.log ++ [(.info, .downloadingFile)]
    match env.fileFetch file_url with
    | .reqError =>
      .ok { st with bodyReqs := st.bodyReqs ++ [file_url],
                    log := log1 ++ [(.error, .fileFetchError)] }
    | .midStream part =>
      if env.openFails (pathJoin folder file_name) then .error .osError
      else
        .ok { st with bodyReqs := st.bodyReqs ++ [file_url],
                      overwrote := st.overwrote || (namesOf st.files).contains file_name,
                      files := setFile st.files file_name part,
                      log := log1 ++ [(.error, .fileFetchError)] }
    | .success content =>
      if env.openFails (pathJoin folder file_name) then .error .osError
      else
        .ok { st with bodyReqs := st.bodyReqs ++ [file_url],
                      overwrote := st.overwrote || (namesOf st.files).contains file_name,
                      files := setFile st.files file_name content,
                      downloadedCount := st.downloadedCount + 1,
                      log := log1 ++ [(.info, .fileDone)] }

/-- The download loop over the candidate list. -/
def processAll (env : Env) (base_url folder : String) (localFiles : List String) :
    List String → DlState → Except PyErr DlState
  | [], st => .ok st
  | c :: rest, st =>
    match processOne env base_url folder localFiles st c with
    | .error e => .error e
    | .ok st2 => processAll env base_url folder localFiles rest st2

/-- Model of `download_latest_files` (main.py lines 20-90).  Note that
`os.makedirs` at line 33 sits outside every try block, so an OSError there
escapes; the folder contents seen by `os.listdir` are `files0` when the
folder pre-exists and empty when it was just created. -/
def download_latest_files (base_url folder : String) (n : Nat) (env : Env)
    (files0 : List (String × Content)) : Except PyErr DlState :=
  let log0 : List (Level × LogEvent) := [(.info, .startUrl)]
  if !env.destExists && env.makedirsFails then .error .osError else
  let log1 := if env.destExists then log0 else log0 ++ [(.info, .createdFolder)]
  let files1 := if env.destExists then files0 else []
  if env.listdirFails then
    .ok ⟨files1, [], 0, false, log1 ++ [(.warning, .folderMissing)]⟩
  else
  let localFiles := namesOf files1
  let log2 := log1 ++ [(.info, .localCount)]
  match env.page with
  | .error _ => .ok ⟨files1, [], 0, false, log2 ++ [(.error, .fetchError)]⟩
  | .ok doc =>
    match findList isPreTag doc with
    | none => .ok ⟨files1, [], 0, false, log2 ++ [(.warning, .noPre)]⟩
    | some pre =>
      let all_file_links := extractLinks pre
      if all_file_links.isEmpty then
        .ok ⟨files1, [], 0, false, log2 ++ [(.warning, .noLinks)]⟩
      else
        let latest_files := pySliceLast all_file_links n
        match processAll env base_url folder localFiles latest_files
            ⟨files1, [], 0, false, log2 ++ [(.info, .willDownload)]⟩ with
        | .error e => .error e
        | .ok st => .ok { st with log := st.log ++ [(.info, .summary), (.info, .separator)] }

/-- Candidate list a sync run iterates over, given the environment's page:
the last `n` qualifying links of the first `<pre>` block. -/
def candidatesOf (env : Env) (n : Nat) : List String :=
  match env.page with
  | .error _ => []
  | .ok doc =>
    match findList isPreTag doc with
    | none => []
    | some pre => pySliceLast (extractLinks pre) n

/-- External world of one `clean_old_files` call: whether the folder exists,
the last-modified timestamp of each file, and which `os.remove` calls fail
with OSError. -/
structure CleanEnv where
  folderExists : Bool
  mtime : String → Nat
  removeFails : String → Bool

/-- Observable state of a `clean_old_files` run: remaining folder contents,
the filenames actually removed (in removal order), and the log. -/
structure CleanState where
  files : List (String × Content)
  deleted : List String
  log : List (Level × LogEvent)
deriving Repr, DecidableEq

/-- Deletion plan for one pattern (main.py lines 110-120): the matching
filenames sorted ascending by last-modified time, all but the last `k`
retained for deletion.  Python's `list.sort` is a stable ascending sort, so
it is modelled by the stable `List.insertionSort`. -/
def planDeletions (names : List String) (pattern : String) (mtime : String → Nat)
    (k : Nat) : List String :=
  pyDropLast
    (List.insertionSort (fun a b => mtime a ≤ mtime b)
      (names.filter (fun f => pyStartsWith f pattern))) k

/-- Deletion loop for one pattern (main.py lines 129-134): each `os.remove`
failure is caught and logged, the file staying in place. -/
def applyDeletions (env : CleanEnv) : List String → CleanState → CleanState
  | [], st => st
  | f :: rest, st =>
    if env.removeFails f then
      applyDeletions env rest { st with log := st.log ++ [(.error, .deleteError)] }
    else
      applyDeletions env rest
        { st with files := st.files.filter (fun p => p.1 != f),
                  deleted := st.deleted ++ [f],
                  log := st.log ++ [(.info, .deletedFile)] }

/-- Body of the per-pattern loop of `clean_old_files` (main.py lines
108-134).  The folder is re-listed for every pattern, so deletions made for
an earlier pattern are visible to later ones. -/
def cleanPattern (env : CleanEnv) (k : Nat) (st : CleanState) (pattern : String) :
    CleanState :=
  let matching := (namesOf st.files).filter (fun f => pyStartsWith f pattern)
  if matching.isEmpty then { st with log := st.log ++ [(.info, .noMatch)] }
  else
    let toDelete := planDeletions (namesOf st.files) pattern env.mtime k
    if toDelete.isEmpty then { st with log := st.log ++ [(.info, .nothingToDelete)] }
    else applyDeletions env toDelete { st with log := st.log ++ [(.info, .foundOld)] }

/-- Default filename-prefix patterns of `clean_old_files` (main.py line 93). -/
def defaultPatterns : List String := ["rii", "rti", "rka"]

/-- Model of `clean_old_files` (main.py lines 93-137). -/
def clean_old_files (folder : String) (patterns : List String) (k : Nat)
    (env : CleanEnv) (files0 : List (String × Content)) : CleanState :=
  let log0 : List (Level × LogEvent) := [(.info, .startClean)]
  let _ := folder
  if !env.folderExists then ⟨files0, [], log0 ++ [(.warning, .cleanFolderMissing)]⟩
  else
    let st := patterns.foldl (cleanPattern env k) ⟨files0, [], log0⟩
    { st with log := st.log ++ [(.info, .cleanDone), (.info, .separator)] }

/-- Result of processing one configured target in the `__main__` loop:
`keepUsed` is the keep-count handed to `clean_old_files`. -/
structure TargetOutcome where
  url : String
  folder : String
  keepUsed : Nat
  sync : DlState
  cleanSt : CleanState
deriving Repr, DecidableEq

/-- One iteration of the `__main__` loop (main.py lines 141-143): download,
then prune the same target's folder with keep-count `k`. -/
def runTarget (n k : Nat) (envOf : String × String → Env × CleanEnv)
    (worldOf : String → List (String × Content)) (t : String × String) :
    Except PyErr TargetOutcome :=
  match download_latest_files t.1 t.2 n (envOf t).1 (worldOf t.2) with
  | .error e => .error e
  | .ok st => .ok ⟨t.1, t.2, k, st, clean_old_files t.2 defaultPatterns k (envOf t).2 st.files⟩

/-- The `__main__` loop over the remaining targets with a fixed keep-count.
An uncaught exception in any iteration aborts the whole loop. -/
def runTargets (n k : Nat) (envOf : String × String → Env × CleanEnv)
    (worldOf : String → List (String × Content)) :
    List (String × String) → Except PyErr (List TargetOutcome)
  | [] => .ok []
  | t :: rest =>
    match runTarget n k envOf worldOf t with
    | .error e => .error e
    | .ok o =>
      match runTargets n k envOf worldOf rest with
      | .error e => .error e
      | .ok os => .ok (o :: os)

/-- Model of the `__main__` block (main.py lines 140-143): per target,
download then clean, with keep-count
`NUM_LAST_FILES_TO_DOWNLOAD * len(TARGET_URLS)`. -/
def runMain (targets : List (String × String)) (n : Nat)
    (envOf : String × String → Env × CleanEnv)
    (worldOf : String → List (String × Content)) : Except PyErr (List TargetOutcome) :=
  runTargets n (n * targets.length) envOf worldOf targets

/-- Conditions under which no uncaught exception can escape
`download_latest_files`: the destination folder already exists or its
creation succeeds, and opening the destination file for writing never
fails.  HTTP failures and a missing folder at `os.listdir` are all caught. -/
def SafeEnv (e : Env) : Prop :=
  (e.destExists = true ∨ e.makedirsFails = false) ∧ ∀ p, e.openFails p = false

/-- Concrete autoindex page from the specification's scenario: a `<pre>`
block with the parent-directory link and two file anchors. -/
def sampleDoc : List Node :=
  [.elem "html" []
    [.elem "pre" []
      [.elem "a" [("href", "../")] [.text "../"],
       .elem "a" [("href", "a.rii")] [.text "a.rii"],
       .elem "a" [("href", "b.rii")] [.text "b.rii"]]]]

/-- Concrete healthy environment serving `sampleDoc`. -/
def sampleEnv : Env :=
  ⟨true, false, false, .ok sampleDoc, fun _ => .success [1, 2], fun _ => false⟩

/-- Concrete page whose `<pre>` block lists the same filename twice. -/
def dupDoc : List Node :=
  [.elem "pre" [] [.elem "a" [("href", "f.rii")] [], .elem "a" [("href", "f.rii")] []]]

/-- Concrete environment serving `dupDoc` whose file GETs all fail midway
through the body, after one chunk has been written. -/
def dupEnv : Env :=
  ⟨true, false, false, .ok dupDoc, fun _ => .midStream [7], fun _ => false⟩

/-- Concrete environment in which the destination folder is missing and
`os.makedirs` raises OSError. -/
def envMakedirsCrash : Env :=
  ⟨false, true, false, .error (), fun _ => .reqError, fun _ => false⟩

/-- Concrete environment whose listing fetch fails with a RequestException
(connection error or non-2xx status). -/
def envErr : Env :=
  ⟨true, false, false, .error (), fun _ => .reqError, fun _ => false⟩

/-- Concrete retention environment: folder present, last-modified time given
by name length, every `os.remove` succeeding. -/
def cleanEnvLen : CleanEnv :=
  ⟨true, fun s => s.length, fun _ => false⟩

/-- Concrete per-target environment map: every target gets `envErr` and
`cleanEnvLen`. -/
def envOfErr : String × String → Env × CleanEnv := fun _ => (envErr, cleanEnvLen)

/-- Concrete world: every folder holds a single file `x`. -/
def worldOfX : String → List (String × Content) := fun _ => [("x", [])]

/-- Result state of a sync whose listing fetch failed, over a folder holding
the single file `x`. -/
def dlErrState : DlState :=
  ⟨[("x", [])], [], 0, false,
    [(.info, .startUrl), (.info, .localCount), (.error, .fetchError)]⟩

/-- Fifteen files matching the prefix `rii`, for the specification's
retention scenario. -/
def files15 : List (String × Content) :=
  (List.range 15).map (fun i => (String.append "rii" (Nat.toDigits 10 i).asString, []))

/-!
Theorems.  First the characterization of the BeautifulSoup search models as
document-order traversals, then helper lemmas about the download loop and
the retention fold, then one theorem (with witness or counterexample) per
claim C1-C10.
-/

mutual

theorem findNode_eq_find (p : Node → Bool) (n : Node) :
    findNode p n = (preorderNode n).find? p := by
  cases n with
  | text s =>
    cases h : p (Node.text s) <;> simp [findNode, preorderNode, List.find?, h]
  | elem t a ch =>
    cases h : p (Node.elem t a ch) <;>
      simp [findNode, preorderNode, List.find?, h, findList_eq_find p ch]

theorem findList_eq_find (p : Node → Bool) (ns : List Node) :
    findList p ns = (preorderList ns).find? p := by
  cases ns with
  | nil => simp [findList, preorderList]
  | cons n rest =>
    simp only [findList, preorderList, List.find?_append,
      findNode_eq_find p n, findList_eq_find p rest]
    cases hm : (preorderNode n).find? p <;> simp

end

mutual

theorem findAllNode_eq_filter (p : Node → Bool) (n : Node) :
    findAllNode p n = (preorderNode n).filter p := by
  cases n with
  | text s =>
    cases h : p (Node.text s) <;> simp [findAllNode, preorderNode, h]
  | elem t a ch =>
    cases h : p (Node.elem t a ch) <;>
      simp [findAllNode, preorderNode, h, findAllList_eq_filter p ch]

theorem findAllList_eq_filter (p : Node → Bool) (ns : List Node) :
    findAllList p ns = (preorderList ns).filter p := by
  cases ns with
  | nil => simp [findAllList, preorderList]
  | cons n rest =>
    simp [findAllList, preorderList, List.filter_append,
      findAllNode_eq_filter p n, findAllList_eq_filter p rest]

end

theorem findAllWithin_eq_filter (p : Node → Bool) (n : Node) :
    findAllWithin p n = (descendants n).filter p := by
  cases n with
  | text s => simp [findAllWithin, descendants]
  | elem t a ch => simp [findAllWithin, descendants, findAllList_eq_filter]

theorem namesOf_setFile (fs : List (String × Content)) (name : String) (c : Content) :
    namesOf (setFile fs name c) =
      if (namesOf fs).contains name then namesOf fs else namesOf fs ++ [name] := by
  unfold setFile
  cases h : (namesOf fs).contains name with
  | false => simp [h, namesOf]
  | true =>
    simp only [h, if_true, namesOf, List.map_map]
    refine List.map_congr_left ?_
    intro p _
    by_cases hp : p.1 = name <;> simp [hp]

theorem mem_namesOf_setFile (fs : List (String × Content)) (name : String) (c : Content)
    (x : String) (hx : x ∈ namesOf fs) : x ∈ namesOf (setFile fs name c) := by
  rw [namesOf_setFile]
  split <;> simp [hx]

theorem self_mem_namesOf_setFile (fs : List (String × Content)) (name : String)
    (c : Content) : name ∈ namesOf (setFile fs name c) := by
  rw [namesOf_setFile]
  split
  · next h => simpa using h
  · simp

/-- Elements of the per-pattern deletion plan match the pattern and come from
the listing. -/
theorem mem_planDeletions (names : List String) (pattern : String)
    (mtime : String → Nat) (k : Nat) (x : String)
    (hx : x ∈ planDeletions names pattern mtime k) :
    x ∈ names ∧ pyStartsWith x pattern = true := by
  unfold planDeletions pyDropLast at hx
  split at hx
  · simp at hx
  · have hx2 := List.take_subset _ _ hx
    have hx3 := (List.perm_insertionSort
      (fun a b => mtime a ≤ mtime b) (names.filter (fun f => pyStartsWith f pattern))).mem_iff.mp hx2
    have := List.mem_filter.mp hx3
    exact ⟨this.1, this.2⟩

theorem applyDeletions_noFail (env : CleanEnv) (hrm : ∀ x, env.removeFails x = false)
    (td : List String) :
    ∀ st : CleanState, (applyDeletions env td st).deleted = st.deleted ++ td ∧
      (applyDeletions env td st).files = st.files.filter (fun p => !(td.contains p.1)) := by
  induction td with
  | nil => intro st; simp [applyDeletions]
  | cons d rest ih =>
    intro st
    simp only [applyDeletions, hrm d, Bool.false_eq_true, if_false]
    obtain ⟨hdel, hfil⟩ := ih _
    refine ⟨by rw [hdel]; simp, ?_⟩
    rw [hfil]
    simp only [List.filter_filter]
    refine List.filter_congr ?_
    intro p _
    by_cases hp : p.1 = d <;> simp [hp, List.contains_cons]

theorem applyDeletions_frame (env : CleanEnv) (td : List String) :
    ∀ st : CleanState,
      (∀ x ∈ namesOf (applyDeletions env td st).files, x ∈ namesOf st.files) ∧
      (∀ x ∈ namesOf st.files, x ∉ namesOf (applyDeletions env td st).files → x ∈ td) := by
  induction td with
  | nil => intro st; simp [applyDeletions]
  | cons d rest ih =>
    intro st
    simp only [applyDeletions]
    split
    · obtain ⟨h1, h2⟩ := ih { st with log := st.log ++ [(.error, .deleteError)] }
      exact ⟨fun x hx => h1 x hx, fun x hx hnx => List.mem_cons_of_mem d (h2 x hx hnx)⟩
    · obtain ⟨h1, h2⟩ := ih
        { st with files := st.files.filter (fun p => p.1 != d),
                  deleted := st.deleted ++ [d],
                  log := st.log ++ [(.info, .deletedFile)] }
      constructor
      · intro x hx
        have := h1 x hx
        simp only [namesOf, List.mem_map] at this ⊢
        obtain ⟨p, hp, hpx⟩ := this
        exact ⟨p, (List.mem_filter.mp hp).1, hpx⟩
      · intro x hx hnx
        by_cases hxd : x = d
        · simp [hxd]
        · refine List.mem_cons_of_mem d (h2 x ?_ hnx)
          simp only [namesOf, List.mem_map] at hx ⊢
          obtain ⟨p, hp, hpx⟩ := hx
          refine ⟨p, List.mem_filter.mpr ⟨hp, ?_⟩, hpx⟩
          simp [hpx, hxd]

theorem cleanPattern_frame (env : CleanEnv) (k : Nat) (st : CleanState) (pat : String) :
    (∀ x ∈ namesOf (cleanPattern env k st pat).files, x ∈ namesOf st.files) ∧
    (∀ x ∈ namesOf st.files, x ∉ namesOf (cleanPattern env k st pat).files →
      pyStartsWith x pat = true) := by
  simp only [cleanPattern]
  split
  · exact ⟨fun x hx => hx, fun x hx hnx => absurd hx hnx⟩
  · split
    · exact ⟨fun x hx => hx, fun x hx hnx => absurd hx hnx⟩
    · obtain ⟨h1, h2⟩ := applyDeletions_frame env
        (planDeletions (namesOf st.files) pat env.mtime k)
        { st with log := st.log ++ [(.info, .foundOld)] }
      refine ⟨fun x hx => h1 x hx, fun x hx hnx => ?_⟩
      exact (mem_planDeletions _ _ _ _ _ (h2 x hx hnx)).2

theorem cleanFold_frame (env : CleanEnv) (k : Nat) (pats : List String) :
    ∀ st : CleanState,
      (∀ x ∈ namesOf (pats.foldl (cleanPattern env k) st).files, x ∈ namesOf st.files) ∧
      (∀ x ∈ namesOf st.files, x ∉ namesOf (pats.foldl (cleanPattern env k) st).files →
        ∃ p ∈ pats, pyStartsWith x p = true) := by
  induction pats with
  | nil => intro st; simp
  | cons pat rest ih =>
    intro st
    simp only [List.foldl_cons]
    obtain ⟨ha1, ha2⟩ := cleanPattern_frame env k st pat
    obtain ⟨hb1, hb2⟩ := ih (cleanPattern env k st pat)
    constructor
    · exact fun x hx => ha1 x (hb1 x hx)
    · intro x hx hnx
      by_cases hmid : x ∈ namesOf (cleanPattern env k st pat).files
      · obtain ⟨p, hp, hps⟩ := hb2 x hmid hnx
        exact ⟨p, List.mem_cons_of_mem pat hp, hps⟩
      · exact ⟨pat, List.mem_cons_self pat rest, ha2 x hx hmid⟩

/-- Characterization of one pruning pass started on a fresh state: the
deleted names are exactly the plan for the pattern, and the remaining files
are the original ones minus those names. -/
theorem cleanPattern_run (env : CleanEnv) (k : Nat) (files0 : List (String × Content))
    (lg : List (Level × LogEvent)) (pat : String)
    (hrm : ∀ x, env.removeFails x = false) :
    (cleanPattern env k ⟨files0, [], lg⟩ pat).deleted =
      planDeletions (namesOf files0) pat env.mtime k ∧
    (cleanPattern env k ⟨files0, [], lg⟩ pat).files =
      files0.filter (fun p =>
        !((planDeletions (namesOf files0) pat env.mtime k).contains p.1)) := by
  simp only [cleanPattern]
  split
  · next hM =>
    have hplan : planDeletions (namesOf files0) pat env.mtime k = [] := by
      unfold planDeletions pyDropLast
      rw [List.isEmpty_iff.mp hM]
      split <;> simp
    rw [hplan]
    exact ⟨rfl, by simp⟩
  · split
    · next hD =>
      rw [List.isEmpty_iff.mp hD]
      exact ⟨rfl, by simp⟩
    · obtain ⟨hdel, hfil⟩ := applyDeletions_noFail env hrm
        (planDeletions (namesOf files0) pat env.mtime k)
        ⟨files0, [], lg ++ [(.info, .foundOld)]⟩
      exact ⟨by rw [hdel]; simp, hfil⟩

/-- Properties of the per-pattern deletion plan for a positive keep-count:
its size is the number of matches minus the keep-count, its entries are
matches, every planned entry is at least as old as every match left out, and
with at most keep-count matches it is empty. -/
theorem planDeletions_spec (names : List String) (pat : String) (mtime : String → Nat)
    (k : Nat) (hk : 1 ≤ k) :
    (planDeletions names pat mtime k).length =
      (names.filter (fun f => pyStartsWith f pat)).length - k ∧
    (∀ d ∈ planDeletions names pat mtime k,
      d ∈ names.filter (fun f => pyStartsWith f pat)) ∧
    (∀ d ∈ planDeletions names pat mtime k,
      ∀ s ∈ names.filter (fun f => pyStartsWith f pat),
        s ∉ planDeletions names pat mtime k → mtime d ≤ mtime s) ∧
    ((names.filter (fun f => pyStartsWith f pat)).length ≤ k →
      planDeletions names pat mtime k = []) := by
  haveI : IsTotal String (fun a b => mtime a ≤ mtime b) := ⟨fun a b => Nat.le_total _ _⟩
  haveI : IsTrans String (fun a b => mtime a ≤ mtime b) :=
    ⟨fun a b c h1 h2 => Nat.le_trans h1 h2⟩
  have hkne : ¬ (k = 0) := by omega
  have hperm := List.perm_insertionSort (fun a b => mtime a ≤ mtime b)
    (names.filter (fun f => pyStartsWith f pat))
  have hsorted := List.sorted_insertionSort (fun a b => mtime a ≤ mtime b)
    (names.filter (fun f => pyStartsWith f pat))
  have hlen := hperm.length_eq
  have hDtake : planDeletions names pat mtime k =
      List.take ((names.filter (fun f => pyStartsWith f pat)).length - k)
        (List.insertionSort (fun a b => mtime a ≤ mtime b)
          (names.filter (fun f => pyStartsWith f pat))) := by
    unfold planDeletions pyDropLast
    rw [if_neg hkne, hlen]
  refine ⟨?_, ?_, ?_, ?_⟩
  · rw [hDtake, List.length_take, hlen]
    exact Nat.min_eq_left (Nat.sub_le _ _)
  · intro d hd
    obtain ⟨h1, h2⟩ := mem_planDeletions names pat mtime k d hd
    exact List.mem_filter.mpr ⟨h1, h2⟩
  · intro d hd s hs hsn
    rw [hDtake] at hd hsn
    have hssorted : s ∈ List.insertionSort (fun a b => mtime a ≤ mtime b)
        (names.filter (fun f => pyStartsWith f pat)) := hperm.mem_iff.mpr hs
    rw [← List.take_append_drop ((names.filter (fun f => pyStartsWith f pat)).length - k)
        (List.insertionSort (fun a b => mtime a ≤ mtime b)
          (names.filter (fun f => pyStartsWith f pat)))] at hssorted hsorted
    have hsd : s ∈ List.drop ((names.filter (fun f => pyStartsWith f pat)).length - k)
        (List.insertionSort (fun a b => mtime a ≤ mtime b)
          (names.filter (fun f => pyStartsWith f pat))) := by
      rcases List.mem_append.mp hssorted with h1 | h1
      · exact absurd h1 hsn
      · exact h1
    exact (List.pairwise_append.mp hsorted).2.2 d hd s hsd
  · intro hle
    rw [hDtake, Nat.sub_eq_zero_of_le hle, List.take_zero]

theorem processOne_skip (env : Env) (b f : String) (lf : List String) (st : DlState)
    (c : String) (hc : lf.contains c = true) :
    processOne env b f lf st c = .ok { st with log := st.log ++ [(.info, .skipExisting)] } := by
  simp only [processOne, hc]
  rfl

theorem processOne_success (env : Env) (b f : String) (lf : List String) (st : DlState)
    (c : String) (cnt : Content) (hc : lf.contains c = false)
    (hcnt : env.fileFetch (pathJoin b c) = .success cnt)
    (hopen : ∀ p, env.openFails p = false) :
    processOne env b f lf st c = .ok
      { st with bodyReqs := st.bodyReqs ++ [pathJoin b c],
                overwrote := st.overwrote || (namesOf st.files).contains c,
                files := setFile st.files c cnt,
                downloadedCount := st.downloadedCount + 1,
                log := st.log ++ [(.info, .downloadingFile)] ++ [(.info, .fileDone)] } := by
  simp only [processOne, hc, hcnt, hopen]
  rfl

/-- Case analysis of one loop step: the candidate is skipped because it is in
the local snapshot, or it is attempted, in which case either nothing is
written (request error) or some content is written under its name. -/
theorem processOne_cases (env : Env) (b f : String) (lf : List String) (st : DlState)
    (c : String) (st1 : DlState) (h : processOne env b f lf st c = .ok st1) :
    (lf.contains c = true ∧ st1.files = st.files ∧ st1.overwrote = st.overwrote)
    ∨ (lf.contains c = false ∧
        ((st1.files = st.files ∧ st1.overwrote = st.overwrote)
         ∨ (∃ cnt, st1.files = setFile st.files c cnt ∧
              st1.overwrote = (st.overwrote || (namesOf st.files).contains c)))) := by
  simp only [processOne] at h
  split at h
  · next hc =>
    injection h with h1
    subst h1
    exact Or.inl ⟨hc, rfl, rfl⟩
  · next hc =>
    have hcf : lf.contains c = false := by simpa using hc
    split at h
    · injection h with h1
      subst h1
      exact Or.inr ⟨hcf, Or.inl ⟨rfl, rfl⟩⟩
    · split at h
      · exact Except.noConfusion h
      · injection h with h1
        subst h1
        exact Or.inr ⟨hcf, Or.inr ⟨_, rfl, rfl⟩⟩
    · split at h
      · exact Except.noConfusion h
      · injection h with h1
        subst h1
        exact Or.inr ⟨hcf, Or.inr ⟨_, rfl, rfl⟩⟩

theorem processOne_ok_of_no_openFail (env : Env) (b f : String) (lf : List String)
    (st : DlState) (c : String) (hopen : ∀ p, env.openFails p = false) :
    ∃ st1, processOne env b f lf st c = .ok st1 := by
  simp only [processOne]
  split
  · exact ⟨_, rfl⟩
  · split
    · exact ⟨_, rfl⟩
    · rw [hopen]
      exact ⟨_, rfl⟩
    · rw [hopen]
      exact ⟨_, rfl⟩

theorem processAll_ok_of_no_openFail (env : Env) (b f : String) (lf : List String)
    (hopen : ∀ p, env.openFails p = false) :
    ∀ (cs : List String) (st : DlState), ∃ st2, processAll env b f lf cs st = .ok st2 := by
  intro cs
  induction cs with
  | nil => intro st; exact ⟨st, rfl⟩
  | cons c rest ih =>
    intro st
    obtain ⟨st1, h1⟩ := processOne_ok_of_no_openFail env b f lf st c hopen
    obtain ⟨st2, h2⟩ := ih st1
    refine ⟨st2, ?_⟩
    simp only [processAll, h1]
    exact h2

theorem processAll_all_known_eq (env : Env) (b f : String) (lf : List String) :
    ∀ (cs : List String), (∀ c ∈ cs, lf.contains c = true) →
    ∀ (st st2 : DlState), processAll env b f lf cs st = .ok st2 →
      st2.files = st.files ∧ st2.bodyReqs = st.bodyReqs ∧
      st2.downloadedCount = st.downloadedCount ∧ st2.overwrote = st.overwrote := by
  intro cs
  induction cs with
  | nil =>
    intro _ st st2 h
    injection h with h1
    subst h1
    exact ⟨rfl, rfl, rfl, rfl⟩
  | cons c rest ih =>
    intro hall st st2 h
    have hc : lf.contains c = true := hall c (List.mem_cons_self c rest)
    rw [processAll] at h
    split at h
    · exact Except.noConfusion h
    · next st1 heq =>
      rw [processOne_skip env b f lf st c hc] at heq
      injection heq with h1
      subst h1
      exact ih (fun x hx => hall x (List.mem_cons_of_mem c hx))
        { st with log := st.log ++ [(.info, .skipExisting)] } st2 h

theorem processAll_names_mono (env : Env) (b f : String) (lf : List String) :
    ∀ (cs : List String) (st st2 : DlState), processAll env b f lf cs st = .ok st2 →
      ∀ x ∈ namesOf st.files, x ∈ namesOf st2.files := by
  intro cs
  induction cs with
  | nil =>
    intro st st2 h
    injection h with h1
    subst h1
    exact fun x hx => hx
  | cons c rest ih =>
    intro st st2 h
    rw [processAll] at h
    split at h
    · exact Except.noConfusion h
    · next st1 heq =>
      intro x hx
      refine ih st1 st2 h x ?_
      rcases processOne_cases env b f lf st c st1 heq with ⟨_, hf, _⟩ | ⟨_, hsub⟩
      · rw [hf]; exact hx
      · rcases hsub with ⟨hf, _⟩ | ⟨cnt, hf, _⟩
        · rw [hf]; exact hx
        · rw [hf]; exact mem_namesOf_setFile _ _ _ _ hx

theorem processAll_covers (env : Env) (b f : String) (lf : List String)
    (hopen : ∀ p, env.openFails p = false)
    (hfetch : ∀ u, ∃ cnt, env.fileFetch u = .success cnt) :
    ∀ (cs : List String) (st st2 : DlState), processAll env b f lf cs st = .ok st2 →
      ∀ c ∈ cs, lf.contains c = true ∨ c ∈ namesOf st2.files := by
  intro cs
  induction cs with
  | nil => intro st st2 _ c hc; simp at hc
  | cons c rest ih =>
    intro st st2 h c' hc'
    rw [processAll] at h
    split at h
    · exact Except.noConfusion h
    · next st1 heq =>
      rcases List.mem_cons.mp hc' with rfl | hmem
      · cases hc : lf.contains c' with
        | true => exact Or.inl rfl
        | false =>
          obtain ⟨cnt, hcnt⟩ := hfetch (pathJoin b c')
          rw [processOne_success env b f lf st c' cnt hc hcnt hopen] at heq
          injection heq with h1
          subst h1
          refine Or.inr (processAll_names_mono env b f lf rest _ st2 h c' ?_)
          exact self_mem_namesOf_setFile _ _ _
      · exact ih st1 st2 h c' hmem

theorem processAll_no_overwrite (env : Env) (b f : String) (lf : List String) :
    ∀ (cs : List String), cs.Nodup →
    ∀ (st : DlState), (∀ c ∈ cs, c ∈ namesOf st.files → lf.contains c = true) →
      st.overwrote = false →
    ∀ st2, processAll env b f lf cs st = .ok st2 → st2.overwrote = false := by
  intro cs
  induction cs with
  | nil =>
    intro _ st _ hov st2 h
    injection h with h1
    subst h1
    exact hov
  | cons c rest ih =>
    intro hnd st hin hov st2 h
    obtain ⟨hcr, hndr⟩ := List.nodup_cons.mp hnd
    rw [processAll] at h
    split at h
    · exact Except.noConfusion h
    · next st1 heq =>
      rcases processOne_cases env b f lf st c st1 heq with ⟨_, hf, hw⟩ | ⟨hcf, hsub⟩
      · refine ih hndr st1 (fun x hx hmem => ?_) (hw.trans hov) st2 h
        exact hin x (List.mem_cons_of_mem c hx) (hf ▸ hmem)
      · have hnmem : c ∉ namesOf st.files := by
          intro hmem
          rw [hin c (List.mem_cons_self c rest) hmem] at hcf
          exact Bool.noConfusion hcf
        rcases hsub with ⟨hf, hw⟩ | ⟨cnt, hf, hw⟩
        · refine ih hndr st1 (fun x hx hmem => ?_) (hw.trans hov) st2 h
          exact hin x (List.mem_cons_of_mem c hx) (hf ▸ hmem)
        · have hcont : (namesOf st.files).contains c = false := by
            cases hcc : (namesOf st.files).contains c with
            | false => rfl
            | true => exact absurd (by simpa using hcc) hnmem
          have hov1 : st1.overwrote = false := by
            rw [hw, hov, hcont]
            rfl
          refine ih hndr st1 (fun x hx hmem => ?_) hov1 st2 h
          rw [hf, namesOf_setFile, hcont] at hmem
          simp only [Bool.false_eq_true, if_false] at hmem
          rcases List.mem_append.mp hmem with hx1 | hx1
          · exact hin x (List.mem_cons_of_mem c hx) hx1
          · exact absurd ((List.mem_singleton.mp hx1) ▸ hx) hcr

theorem processAll_all_known_ok (env : Env) (b f : String) (lf : List String) :
    ∀ (cs : List String), (∀ c ∈ cs, lf.contains c = true) →
    ∀ st : DlState, ∃ st2, processAll env b f lf cs st = .ok st2 := by
  intro cs
  induction cs with
  | nil => intro _ st; exact ⟨st, rfl⟩
  | cons c rest ih =>
    intro hall st
    obtain ⟨st2, h2⟩ := ih (fun x hx => hall x (List.mem_cons_of_mem c hx))
      { st with log := st.log ++ [(.info, .skipExisting)] }
    refine ⟨st2, ?_⟩
    simp only [processAll, processOne_skip env b f lf st c (hall c (List.mem_cons_self c rest))]
    exact h2

theorem download_ok_of_safe (b f : String) (n : Nat) (env : Env)
    (files0 : List (String × Content)) (hsafe : SafeEnv env) :
    ∃ st, download_latest_files b f n env files0 = .ok st := by
  obtain ⟨hmk, hopen⟩ := hsafe
  have h1 : (!env.destExists && env.makedirsFails) = false := by
    rcases hmk with h | h <;> simp [h]
  simp only [download_latest_files, h1, Bool.false_eq_true, if_false]
  split
  · exact ⟨_, rfl⟩
  · split
    · exact ⟨_, rfl⟩
    · split
      · exact ⟨_, rfl⟩
      · split
        · exact ⟨_, rfl⟩
        · obtain ⟨st2, h2⟩ := processAll_ok_of_no_openFail env b f _ hopen _ _
          rw [h2]
          exact ⟨_, rfl⟩

theorem download_page_error (b f : String) (n : Nat) (env : Env)
    (files0 : List (String × Content))
    (hmk : env.destExists = true ∨ env.makedirsFails = false)
    (hld : env.listdirFails = false) (hpage : env.page = .error ()) :
    ∃ r, download_latest_files b f n env files0 = .ok r ∧
      r.files = (if env.destExists then files0 else []) ∧ r.bodyReqs = [] ∧
      r.downloadedCount = 0 ∧ (Level.error, LogEvent.fetchError) ∈ r.log := by
  have h1 : (!env.destExists && env.makedirsFails) = false := by
    rcases hmk with h | h <;> simp [h]
  simp only [download_latest_files, h1, hld, hpage, Bool.false_eq_true, if_false]
  exact ⟨_, rfl, rfl, rfl, rfl, by simp⟩

theorem download_all_known (b f : String) (n : Nat) (env : Env)
    (files0 : List (String × Content)) (hde : env.destExists = true)
    (hknown : ∀ c ∈ candidatesOf env n, c ∈ namesOf files0) :
    ∃ r, download_latest_files b f n env files0 = .ok r ∧
      r.bodyReqs = [] ∧ r.files = files0 ∧ r.downloadedCount = 0 := by
  simp only [download_latest_files, hde, Bool.not_true, Bool.false_and, Bool.false_eq_true,
    if_false, eq_self_iff_true, if_true]
  split
  · exact ⟨_, rfl, rfl, rfl, rfl⟩
  · cases hpage : env.page with
    | error e => simp only [hpage]; exact ⟨_, rfl, rfl, rfl, rfl⟩
    | ok doc =>
      simp only [hpage]
      split
      · exact ⟨_, rfl, rfl, rfl, rfl⟩
      · next pre hfind =>
        split
        · exact ⟨_, rfl, rfl, rfl, rfl⟩
        · have hcand : candidatesOf env n = pySliceLast (extractLinks pre) n := by
            simp [candidatesOf, hpage, hfind]
          have hall : ∀ c ∈ pySliceLast (extractLinks pre) n,
              (namesOf files0).contains c = true := by
            intro c hc
            have := hknown c (by rw [hcand]; exact hc)
            simpa using this
          obtain ⟨st2, h2⟩ := processAll_all_known_ok env b f (namesOf files0) _ hall
            ⟨files0, [], 0, false, [(Level.info, LogEvent.startUrl)] ++
              [(Level.info, LogEvent.localCount)] ++ [(Level.info, LogEvent.willDownload)]⟩
          obtain ⟨hf, hb, hd, ho⟩ := processAll_all_known_eq env b f (namesOf files0) _ hall _ _ h2
          rw [h2]
          exact ⟨_, rfl, by simpa using hb, by simpa using hf, by simpa using hd⟩

theorem download_no_overwrite_aux (b f : String) (n : Nat) (env : Env)
    (files0 : List (String × Content)) (r : DlState)
    (hnd : (candidatesOf env n).Nodup)
    (hr : download_latest_files b f n env files0 = .ok r) :
    r.overwrote = false := by
  simp only [download_latest_files] at hr
  split at hr
  · exact Except.noConfusion hr
  · split at hr
    · injection hr with h1
      subst h1
      rfl
    · split at hr
      · injection hr with h1
        subst h1
        rfl
      · next doc hpage =>
        split at hr
        · injection hr with h1
          subst h1
          rfl
        · next pre hfind =>
          split at hr
          · injection hr with h1
            subst h1
            rfl
          · split at hr
            · exact Except.noConfusion hr
            · next st2 heq =>
              injection hr with h1
              subst h1
              have hcand : candidatesOf env n = pySliceLast (extractLinks pre) n := by
                simp [candidatesOf, hpage, hfind]
              rw [hcand] at hnd
              exact processAll_no_overwrite env b f _ _ hnd _
                (fun c _ hmem => by simpa using hmem) rfl st2 heq

theorem download_names_mono (b f : String) (n : Nat) (env : Env)
    (files0 : List (String × Content)) (r : DlState) (hde : env.destExists = true)
    (hr : download_latest_files b f n env files0 = .ok r) :
    ∀ x ∈ namesOf files0, x ∈ namesOf r.files := by
  simp only [download_latest_files, hde, Bool.not_true, Bool.false_and, Bool.false_eq_true,
    if_false, eq_self_iff_true, if_true] at hr
  split at hr
  · injection hr with h1
    subst h1
    exact fun x hx => hx
  · split at hr
    · injection hr with h1
      subst h1
      exact fun x hx => hx
    · next doc hpage =>
      split at hr
      · injection hr with h1
        subst h1
        exact fun x hx => hx
      · next pre hfind =>
        split at hr
        · injection hr with h1
          subst h1
          exact fun x hx => hx
        · split at hr
          · exact Except.noConfusion hr
          · next st2 heq =>
            injection hr with h1
            subst h1
            exact fun x hx => processAll_names_mono env b f _ _ _ st2 heq x hx

theorem download_covers (b f : String) (n : Nat) (env : Env)
    (files0 : List (String × Content)) (r : DlState)
    (hopen : ∀ p, env.openFails p = false)
    (hfetch : ∀ u, ∃ cnt, env.fileFetch u = .success cnt)
    (hld : env.listdirFails = false) (hde : env.destExists = true)
    (hr : download_latest_files b f n env files0 = .ok r) :
    ∀ c ∈ candidatesOf env n, c ∈ namesOf r.files := by
  simp only [download_latest_files, hde, hld, Bool.not_true, Bool.false_and, Bool.false_eq_true,
    if_false, eq_self_iff_true, if_true] at hr
  split at hr
  · next hpage =>
    intro c hc
    simp [candidatesOf, hpage] at hc
  · next doc hpage =>
    split at hr
    · next hfind =>
      intro c hc
      simp [candidatesOf, hpage, hfind] at hc
    · next pre hfind =>
      have hcand : candidatesOf env n = pySliceLast (extractLinks pre) n := by
        simp [candidatesOf, hpage, hfind]
      split at hr
      · next hempty =>
        intro c hc
        rw [hcand] at hc
        have : extractLinks pre = [] := by simpa using hempty
        rw [this] at hc
        simp [pySliceLast] at hc
      · split at hr
        · exact Except.noConfusion hr
        · next st2 heq =>
          injection hr with h1
          subst h1
          intro c hc
          rw [hcand] at hc
          rcases processAll_covers env b f _ hopen hfetch _ _ st2 heq c hc with hin | hin
          · refine processAll_names_mono env b f _ _ _ st2 heq c ?_
            simpa using hin
          · exact hin

theorem mem_setFile_of_ne (fs : List (String × Content)) (name : String) (c : Content)
    (p : String × Content) (hp : p ∈ fs) (hne : p.1 ≠ name) :
    p ∈ setFile fs name c := by
  unfold setFile
  split
  · refine List.mem_map.mpr ⟨p, hp, ?_⟩
    rw [if_neg hne]
  · exact List.mem_append_left _ hp

/-- One loop step issues a body request exactly when the candidate is not in
the local snapshot, and then for that candidate's joined URL. -/
theorem processOne_reqs (env : Env) (b f : String) (lf : List String) (st : DlState)
    (c : String) (st1 : DlState) (h : processOne env b f lf st c = .ok st1) :
    (lf.contains c = true ∧ st1.bodyReqs = st.bodyReqs) ∨
    (lf.contains c = false ∧ st1.bodyReqs = st.bodyReqs ++ [pathJoin b c]) := by
  simp only [processOne] at h
  split at h
  · next hc =>
    injection h with h1
    subst h1
    exact Or.inl ⟨hc, rfl⟩
  · next hc =>
    have hcf : lf.contains c = false := by simpa using hc
    split at h
    · injection h with h1
      subst h1
      exact Or.inr ⟨hcf, rfl⟩
    · split at h
      · exact Except.noConfusion h
      · injection h with h1
        subst h1
        exact Or.inr ⟨hcf, rfl⟩
    · split at h
      · exact Except.noConfusion h
      · injection h with h1
        subst h1
        exact Or.inr ⟨hcf, rfl⟩

/-- Across the whole loop, every new body request belongs to some candidate
outside the local snapshot, and every file entry whose name is in the
snapshot survives unchanged (content included). -/
theorem processAll_known_frame (env : Env) (b f : String) (lf : List String) :
    ∀ (cs : List String) (st st2 : DlState), processAll env b f lf cs st = .ok st2 →
      (∀ u ∈ st2.bodyReqs, u ∈ st.bodyReqs ∨
        ∃ c, c ∈ cs ∧ lf.contains c = false ∧ u = pathJoin b c) ∧
      (∀ p ∈ st.files, lf.contains p.1 = true → p ∈ st2.files) := by
  intro cs
  induction cs with
  | nil =>
    intro st st2 h
    injection h with h1
    subst h1
    exact ⟨fun u hu => Or.inl hu, fun p hp _ => hp⟩
  | cons c rest ih =>
    intro st st2 h
    rw [processAll] at h
    split at h
    · exact Except.noConfusion h
    · next st1 heq =>
      obtain ⟨ihr, ihf⟩ := ih st1 st2 h
      constructor
      · intro u hu
        rcases ihr u hu with hin1 | ⟨c', hc', hcf', hu'⟩
        · rcases processOne_reqs env b f lf st c st1 heq with ⟨_, hb⟩ | ⟨hcf, hb⟩
          · rw [hb] at hin1
            exact Or.inl hin1
          · rw [hb] at hin1
            rcases List.mem_append.mp hin1 with h1 | h1
            · exact Or.inl h1
            · exact Or.inr ⟨c, List.mem_cons_self c rest, hcf, List.mem_singleton.mp h1⟩
        · exact Or.inr ⟨c', List.mem_cons_of_mem c hc', hcf', hu'⟩
      · intro p hp hplf
        refine ihf p ?_ hplf
        rcases processOne_cases env b f lf st c st1 heq with ⟨_, hf, _⟩ | ⟨hcf, hsub⟩
        · rw [hf]
          exact hp
        · rcases hsub with ⟨hf, _⟩ | ⟨cnt, hf, _⟩
          · rw [hf]
            exact hp
          · rw [hf]
            refine mem_setFile_of_ne _ _ _ _ hp ?_
            intro hpc
            rw [hpc] at hplf
            rw [hplf] at hcf
            exact Bool.noConfusion hcf

/-- Per-candidate skip guarantee at the level of one sync run: every issued
body request is the joined URL of a candidate that was not in the known set,
and every file present at the start is still there, untouched, at the end. -/
theorem download_known_frame (b f : String) (n : Nat) (env : Env)
    (files0 : List (String × Content)) (r : DlState) (hde : env.destExists = true)
    (hr : download_latest_files b f n env files0 = .ok r) :
    (∀ u ∈ r.bodyReqs, ∃ c, c ∈ candidatesOf env n ∧ c ∉ namesOf files0 ∧
      u = pathJoin b c) ∧
    (∀ p ∈ files0, p ∈ r.files) := by
  simp only [download_latest_files, hde, Bool.not_true, Bool.false_and, Bool.false_eq_true,
    if_false, eq_self_iff_true, if_true] at hr
  split at hr
  · injection hr with h1
    subst h1
    exact ⟨fun u hu => absurd hu (List.not_mem_nil u), fun p hp => hp⟩
  · split at hr
    · injection hr with h1
      subst h1
      exact ⟨fun u hu => absurd hu (List.not_mem_nil u), fun p hp => hp⟩
    · next doc hpage =>
      split at hr
      · injection hr with h1
        subst h1
        exact ⟨fun u hu => absurd hu (List.not_mem_nil u), fun p hp => hp⟩
      · next pre hfind =>
        split at hr
        · injection hr with h1
          subst h1
          exact ⟨fun u hu => absurd hu (List.not_mem_nil u), fun p hp => hp⟩
        · split at hr
          · exact Except.noConfusion hr
          · next st2 heq =>
            injection hr with h1
            subst h1
            have hcand : candidatesOf env n = pySliceLast (extractLinks pre) n := by
              simp [candidatesOf, hpage, hfind]
            obtain ⟨hreqs, hfiles⟩ := processAll_known_frame env b f _ _ _ st2 heq
            constructor
            · intro u hu
              rcases hreqs u hu with h1 | ⟨c, hc, hcf, hu'⟩
              · simp at h1
              · refine ⟨c, by rw [hcand]; exact hc, ?_, hu'⟩
                intro hmem
                rw [(by simpa using hmem : (namesOf files0).contains c = true)] at hcf
                exact Bool.noConfusion hcf
            · intro p hp
              refine hfiles p hp ?_
              simpa [namesOf] using List.mem_map_of_mem Prod.fst hp

theorem runTarget_ok_elim (n k : Nat) (envOf : String × String → Env × CleanEnv)
    (worldOf : String → List (String × Content)) (t : String × String) (o : TargetOutcome)
    (h : runTarget n k envOf worldOf t = .ok o) :
    o.url = t.1 ∧ o.folder = t.2 ∧ o.keepUsed = k ∧
    download_latest_files t.1 t.2 n (envOf t).1 (worldOf t.2) = .ok o.sync ∧
    o.cleanSt = clean_old_files t.2 defaultPatterns k (envOf t).2 o.sync.files := by
  simp only [runTarget] at h
  split at h
  · exact Except.noConfusion h
  · next st heq =>
    injection h with h1
    subst h1
    exact ⟨rfl, rfl, rfl, heq, rfl⟩

theorem runTarget_ok_of_safe (n k : Nat) (envOf : String × String → Env × CleanEnv)
    (worldOf : String → List (String × Content)) (t : String × String)
    (hsafe : SafeEnv (envOf t).1) :
    ∃ o, runTarget n k envOf worldOf t = .ok o := by
  obtain ⟨st, hst⟩ := download_ok_of_safe t.1 t.2 n (envOf t).1 (worldOf t.2) hsafe
  simp only [runTarget, hst]
  exact ⟨_, rfl⟩

theorem runTargets_ok_of_safe (n k : Nat) (envOf : String × String → Env × CleanEnv)
    (worldOf : String → List (String × Content)) :
    ∀ ts : List (String × String), (∀ t ∈ ts, SafeEnv (envOf t).1) →
    ∃ res, runTargets n k envOf worldOf ts = .ok res := by
  intro ts
  induction ts with
  | nil => intro _; exact ⟨[], rfl⟩
  | cons t rest ih =>
    intro hsafe
    obtain ⟨o, ho⟩ := runTarget_ok_of_safe n k envOf worldOf t (hsafe t (List.mem_cons_self t rest))
    obtain ⟨res, hres⟩ := ih (fun x hx => hsafe x (List.mem_cons_of_mem t hx))
    refine ⟨o :: res, ?_⟩
    simp only [runTargets, ho, hres]

theorem runTargets_zip (n k : Nat) (envOf : String × String → Env × CleanEnv)
    (worldOf : String → List (String × Content)) :
    ∀ (ts : List (String × String)) (res : List TargetOutcome),
      runTargets n k envOf worldOf ts = .ok res →
      res.length = ts.length ∧
      ∀ p ∈ res.zip ts, runTarget n k envOf worldOf p.2 = .ok p.1 := by
  intro ts
  induction ts with
  | nil =>
    intro res h
    injection h with h1
    subst h1
    exact ⟨rfl, by simp⟩
  | cons t rest ih =>
    intro res h
    simp only [runTargets] at h
    split at h
    · exact Except.noConfusion h
    · next o heq =>
      split at h
      · exact Except.noConfusion h
      · next os heq2 =>
        injection h with h1
        subst h1
        obtain ⟨hlen, hall⟩ := ih os heq2
        refine ⟨by simp [hlen], ?_⟩
        intro p hp
        rw [List.zip_cons_cons] at hp
        rcases List.mem_cons.mp hp with rfl | hmem
        · exact heq
        · exact hall p hmem

theorem exists_mem_zip_right {α β : Type} :
    ∀ (res : List α) (ts : List β) (t : β), res.length = ts.length → t ∈ ts →
      ∃ o, (o, t) ∈ res.zip ts := by
  intro res
  induction res with
  | nil =>
    intro ts t hlen ht
    cases ts with
    | nil => simp at ht
    | cons t2 rest => simp at hlen
  | cons o os ih =>
    intro ts t hlen ht
    cases ts with
    | nil => simp at ht
    | cons t2 rest =>
      rcases List.mem_cons.mp ht with rfl | hmem
      · exact ⟨o, by simp⟩
      · obtain ⟨o2, ho2⟩ := ih rest t (by simpa using hlen) hmem
        exact ⟨o2, by rw [List.zip_cons_cons]; exact List.mem_cons_of_mem _ ho2⟩

/-- Claim C1, counterexample: with requested count 0 and a one-entry listing,
the slice of main.py line 65 selects the whole listing (Python `l[-0:]` is
`l[0:]`), not min(1, 0) = 0 entries. -/
theorem c1_counterexample :
    ¬ ((pySliceLast ["a.rii"] 0).length = min (List.length ["a.rii"]) 0) := by
  decide

/-- Claim C1, amended: for every requested count N ≥ 1 the candidate list has
exactly min(M, N) entries and is the tail of the listing in its original
order; in particular a listing with at most N entries is selected whole. -/
theorem c1_selection_tail (l : List String) (n : Nat) (h : 1 ≤ n) :
    (pySliceLast l n).length = min l.length n ∧
    (pySliceLast l n).IsSuffix l ∧
    (l.length ≤ n → pySliceLast l n = l) := by
  have hn : ¬ (n = 0) := by omega
  unfold pySliceLast
  rw [if_neg hn]
  refine ⟨?_, List.drop_suffix _ _, ?_⟩
  · rw [List.length_drop]
    omega
  · intro hle
    rw [Nat.sub_eq_zero_of_le hle, List.drop_zero]

/-- Claim C1, witness of the amended statement at a three-entry listing with
requested count 2. -/
theorem c1_selection_tail_witness :
    (pySliceLast ["a.rii", "b.rii", "c.rii"] 2).length =
      min (List.length ["a.rii", "b.rii", "c.rii"]) 2 ∧
    (pySliceLast ["a.rii", "b.rii", "c.rii"] 2).IsSuffix ["a.rii", "b.rii", "c.rii"] ∧
    (List.length ["a.rii", "b.rii", "c.rii"] ≤ 2 →
      pySliceLast ["a.rii", "b.rii", "c.rii"] 2 = ["a.rii", "b.rii", "c.rii"]) :=
  c1_selection_tail ["a.rii", "b.rii", "c.rii"] 2 (by decide)

/-- Claim C2, counterexample: with keep-count 0 and one matching file the
pruning slice of main.py line 120 deletes nothing (Python `l[:-0]` is
`l[:0]`, the empty list), not max(1 - 0, 0) = 1 file. -/
theorem c2_counterexample :
    ¬ ((clean_old_files "d" ["rii"] 0 cleanEnvLen [("rii_a", [])]).deleted.length =
        max (((namesOf [("rii_a", [])]).filter (fun f => pyStartsWith f "rii")).length - 0) 0) := by
  decide

/-- Claim C9: a listing entry whose href begins with a slash makes
os.path.join discard the base URL and the destination folder entirely: the
request URL and the destination path both equal the href itself, an absolute
path that is independent of the destination folder and lies outside it. -/
theorem c9_absolute_href (base folder href : String)
    (h : pyStartsWith href "/" = true) :
    pathJoin base href = href ∧
    pathJoin folder href = href ∧
    pyStartsWith (pathJoin folder href) "/" = true ∧
    (∀ folder2, pathJoin folder2 href = pathJoin folder href) ∧
    (pyStartsWith href (folder ++ "/") = false →
      pyStartsWith (pathJoin folder href) (folder ++ "/") = false) := by
  simp [pathJoin, h]

/-- Claim C9, witness at the base URL of a listing page, the folder
`downloads` and the absolute href `/etc/x.rii`. -/
theorem c9_absolute_href_witness :
    pathJoin "http://server/dir" "/etc/x.rii" = "/etc/x.rii" ∧
    pathJoin "downloads" "/etc/x.rii" = "/etc/x.rii" ∧
    pyStartsWith (pathJoin "downloads" "/etc/x.rii") "/" = true ∧
    (∀ folder2, pathJoin folder2 "/etc/x.rii" = pathJoin "downloads" "/etc/x.rii") ∧
    (pyStartsWith "/etc/x.rii" ("downloads" ++ "/") = false →
      pyStartsWith (pathJoin "downloads" "/etc/x.rii") ("downloads" ++ "/") = false) :=
  c9_absolute_href "http://server/dir" "downloads" "/etc/x.rii" (by decide)

/-- Claim C4, counterexample: with the destination folder absent and
os.makedirs raising OSError (main.py line 33 sits outside every try block),
the sync call aborts with an uncaught exception and the main loop over two
targets dies with it, so the second target is never processed — a single
failure is fatal to the whole process. -/
theorem c4_counterexample :
    download_latest_files "http://u" "d" 5 envMakedirsCrash [] = .error .osError ∧
    runMain [("http://u", "d"), ("http://v", "e")] 5
      (fun _ => (envMakedirsCrash, cleanEnvLen)) (fun _ => []) = .error .osError := by
  constructor <;> rfl

/-- Claim C4, amended: RequestException from either HTTP call and
FileNotFoundError from os.listdir are always caught next to the failing
operation, so whenever the destination folder exists (or its creation
succeeds) and opening the destination file never fails, no exception escapes
the sync, whatever the network does; OSError from os.makedirs or from open,
however, is uncaught and kills the whole process. -/
theorem c4_caught_under_safe (b f : String) (n : Nat) (env : Env)
    (files0 : List (String × Content)) (hsafe : SafeEnv env) :
    ∃ st, download_latest_files b f n env files0 = .ok st :=
  download_ok_of_safe b f n env files0 hsafe

/-- Claim C4, witness of the amended statement: a run whose listing fetch
raises is still exception-free. -/
theorem c4_caught_under_safe_witness :
    ∃ st, download_latest_files "http://u" "d" 5 envErr [] = .ok st :=
  c4_caught_under_safe "http://u" "d" 5 envErr [] ⟨Or.inl rfl, fun _ => rfl⟩

/-- Claim C2, amended: for every keep-count K ≥ 1 (K = 0 behaves differently,
see the counterexample), pruning a pattern deletes exactly max(m − K, 0) of
the m files matching the pattern, all of them matches no newer than any
surviving match — so the K newest matches survive — and removes exactly the
deleted names from the folder; with at most K matches nothing is deleted. -/
theorem c2_retention (folder pat : String) (k : Nat) (env : CleanEnv)
    (files0 : List (String × Content)) (hk : 1 ≤ k)
    (hex : env.folderExists = true) (hrm : ∀ x, env.removeFails x = false) :
    (clean_old_files folder [pat] k env files0).deleted.length =
      ((namesOf files0).filter (fun f => pyStartsWith f pat)).length - k ∧
    (∀ d ∈ (clean_old_files folder [pat] k env files0).deleted,
      d ∈ (namesOf files0).filter (fun f => pyStartsWith f pat)) ∧
    (∀ d ∈ (clean_old_files folder [pat] k env files0).deleted,
      ∀ s ∈ (namesOf files0).filter (fun f => pyStartsWith f pat),
        s ∉ (clean_old_files folder [pat] k env files0).deleted →
          env.mtime d ≤ env.mtime s) ∧
    (((namesOf files0).filter (fun f => pyStartsWith f pat)).length ≤ k →
      (clean_old_files folder [pat] k env files0).deleted = []) ∧
    (clean_old_files folder [pat] k env files0).files =
      files0.filter (fun p =>
        !((clean_old_files folder [pat] k env files0).deleted.contains p.1)) := by
  obtain ⟨hdel, hfil⟩ := cleanPattern_run env k files0 [(.info, .startClean)] pat hrm
  have hrun : (clean_old_files folder [pat] k env files0).deleted =
      planDeletions (namesOf files0) pat env.mtime k ∧
      (clean_old_files folder [pat] k env files0).files =
        files0.filter (fun p =>
          !((planDeletions (namesOf files0) pat env.mtime k).contains p.1)) := by
    simp only [clean_old_files, hex, Bool.not_true, Bool.false_eq_true, if_false,
      List.foldl_cons, List.foldl_nil]
    exact ⟨hdel, hfil⟩
  obtain ⟨hs1, hs2, hs3, hs4⟩ := planDeletions_spec (namesOf files0) pat env.mtime k hk
  refine ⟨?_, ?_, ?_, ?_, ?_⟩
  · rw [hrun.1]; exact hs1
  · rw [hrun.1]; exact hs2
  · rw [hrun.1]; exact hs3
  · intro hle; rw [hrun.1]; exact hs4 hle
  · rw [hrun.2, hrun.1]

/-- Claim C2, witness of the amended statement at the specification's
retention scenario: keep-count 10 with fifteen files matching `rii`. -/
theorem c2_retention_witness :
    (clean_old_files "d" ["rii"] 10 cleanEnvLen files15).deleted.length =
      ((namesOf files15).filter (fun f => pyStartsWith f "rii")).length - 10 ∧
    (∀ d ∈ (clean_old_files "d" ["rii"] 10 cleanEnvLen files15).deleted,
      d ∈ (namesOf files15).filter (fun f => pyStartsWith f "rii")) ∧
    (∀ d ∈ (clean_old_files "d" ["rii"] 10 cleanEnvLen files15).deleted,
      ∀ s ∈ (namesOf files15).filter (fun f => pyStartsWith f "rii"),
        s ∉ (clean_old_files "d" ["rii"] 10 cleanEnvLen files15).deleted →
          cleanEnvLen.mtime d ≤ cleanEnvLen.mtime s) ∧
    (((namesOf files15).filter (fun f => pyStartsWith f "rii")).length ≤ 10 →
      (clean_old_files "d" ["rii"] 10 cleanEnvLen files15).deleted = []) ∧
    (clean_old_files "d" ["rii"] 10 cleanEnvLen files15).files =
      files15.filter (fun p =>
        !((clean_old_files "d" ["rii"] 10 cleanEnvLen files15).deleted.contains p.1)) :=
  c2_retention "d" "rii" 10 cleanEnvLen files15 (by decide) rfl (fun _ => rfl)

/-- Claim C3: in every run — mixed listings included — each body request is
the joined URL of a candidate that was NOT in the known set, so for every
candidate filename already in the known set no request for that file's body
is ever issued, and every file present at the start survives untouched,
content included (no write to a known file); when all candidates are known
the run requests and downloads nothing at all; and re-running a fully
successful sync against its own output requests and downloads nothing
(idempotence). -/
theorem c3_idempotent (base folder : String) (n : Nat) (env : Env)
    (files0 : List (String × Content)) (hde : env.destExists = true) :
    (∀ r, download_latest_files base folder n env files0 = .ok r →
      (∀ u ∈ r.bodyReqs, ∃ c, c ∈ candidatesOf env n ∧ c ∉ namesOf files0 ∧
        u = pathJoin base c) ∧
      (∀ p ∈ files0, p ∈ r.files)) ∧
    ((∀ c ∈ candidatesOf env n, c ∈ namesOf files0) →
      ∃ r, download_latest_files base folder n env files0 = .ok r ∧
        r.bodyReqs = [] ∧ r.files = files0 ∧ r.downloadedCount = 0) ∧
    ((∀ p, env.openFails p = false) →
     (∀ u, ∃ cnt, env.fileFetch u = .success cnt) →
      env.listdirFails = false →
      ∃ r1 r2, download_latest_files base folder n env files0 = .ok r1 ∧
        download_latest_files base folder n env r1.files = .ok r2 ∧
        r2.bodyReqs = [] ∧ r2.files = r1.files ∧ r2.downloadedCount = 0) := by
  refine ⟨fun r hr => download_known_frame base folder n env files0 r hde hr,
    fun hknown => download_all_known base folder n env files0 hde hknown, ?_⟩
  intro hopen hfetch hld
  obtain ⟨r1, hr1⟩ := download_ok_of_safe base folder n env files0 ⟨Or.inl hde, hopen⟩
  have hcov := download_covers base folder n env files0 r1 hopen hfetch hld hde hr1
  obtain ⟨r2, hr2, hb, hf, hd⟩ := download_all_known base folder n env r1.files hde hcov
  exact ⟨r1, r2, hr1, hr2, hb, hf, hd⟩

/-- Claim C3, witness at the specification's sample page over a mixed
listing: `a.rii` is already present locally while `b.rii` is new. -/
theorem c3_idempotent_witness :
    (∀ r, download_latest_files "http://h/d" "dest" 5 sampleEnv [("a.rii", [9])] = .ok r →
      (∀ u ∈ r.bodyReqs, ∃ c, c ∈ candidatesOf sampleEnv 5 ∧
        c ∉ namesOf [("a.rii", [9])] ∧ u = pathJoin "http://h/d" c) ∧
      (∀ p ∈ [("a.rii", ([9] : Content))], p ∈ r.files)) ∧
    ((∀ c ∈ candidatesOf sampleEnv 5, c ∈ namesOf [("a.rii", [9])]) →
      ∃ r, download_latest_files "http://h/d" "dest" 5 sampleEnv [("a.rii", [9])] = .ok r ∧
        r.bodyReqs = [] ∧ r.files = [("a.rii", [9])] ∧ r.downloadedCount = 0) ∧
    ((∀ p, sampleEnv.openFails p = false) →
     (∀ u, ∃ cnt, sampleEnv.fileFetch u = .success cnt) →
      sampleEnv.listdirFails = false →
      ∃ r1 r2, download_latest_files "http://h/d" "dest" 5 sampleEnv
          [("a.rii", [9])] = .ok r1 ∧
        download_latest_files "http://h/d" "dest" 5 sampleEnv r1.files = .ok r2 ∧
        r2.bodyReqs = [] ∧ r2.files = r1.files ∧ r2.downloadedCount = 0) :=
  c3_idempotent "http://h/d" "dest" 5 sampleEnv [("a.rii", [9])] rfl

/-- Claim C6: the extraction equals, link for link, the hrefs of the anchor
descendants of the first pre element in document order with `../` removed
(the first conjunct pins `findList` to the document-order first match); and
when there is no pre element, or it yields no qualifying links, the sync
returns normally after a warning, with no body requests and no writes. -/
theorem c6_parse (base folder : String) (n : Nat) (env : Env)
    (files0 : List (String × Content)) (doc : List Node)
    (hpage : env.page = .ok doc) (hde : env.destExists = true)
    (hld : env.listdirFails = false) :
    findList isPreTag doc = (preorderList doc).find? isPreTag ∧
    (∀ pre, findList isPreTag doc = some pre →
      extractLinks pre =
        (((descendants pre).filter isAnchorWithHref).filterMap hrefOf).filter
          (fun h => h != "../")) ∧
    (findList isPreTag doc = none →
      ∃ r, download_latest_files base folder n env files0 = .ok r ∧
        r.bodyReqs = [] ∧ r.files = files0 ∧ r.downloadedCount = 0 ∧
        (Level.warning, LogEvent.noPre) ∈ r.log) ∧
    (∀ pre, findList isPreTag doc = some pre → extractLinks pre = [] →
      ∃ r, download_latest_files base folder n env files0 = .ok r ∧
        r.bodyReqs = [] ∧ r.files = files0 ∧ r.downloadedCount = 0 ∧
        (Level.warning, LogEvent.noLinks) ∈ r.log) := by
  refine ⟨findList_eq_find _ _, ?_, ?_, ?_⟩
  · intro pre _
    rw [extractLinks, findAllWithin_eq_filter]
  · intro hnone
    simp only [download_latest_files, hde, hld, hpage, hnone, Bool.not_true, Bool.false_and,
      Bool.false_eq_true, if_false, eq_self_iff_true, if_true]
    exact ⟨_, rfl, rfl, rfl, rfl, by simp⟩
  · intro pre hfind hempty
    have hempty2 : (extractLinks pre).isEmpty = true := by simp [hempty]
    simp only [download_latest_files, hde, hld, hpage, hfind, hempty2, Bool.not_true,
      Bool.false_and, Bool.false_eq_true, if_false, eq_self_iff_true, if_true]
    exact ⟨_, rfl, rfl, rfl, rfl, by simp⟩

/-- Claim C6, witness at a document whose pre block holds only the
parent-directory link, so extraction yields no qualifying links. -/
theorem c6_parse_witness :
    findList isPreTag [Node.elem "pre" [] [Node.elem "a" [("href", "../")] []]] =
      (preorderList [Node.elem "pre" [] [Node.elem "a" [("href", "../")] []]]).find? isPreTag ∧
    (∀ pre, findList isPreTag [Node.elem "pre" [] [Node.elem "a" [("href", "../")] []]] =
        some pre →
      extractLinks pre =
        (((descendants pre).filter isAnchorWithHref).filterMap hrefOf).filter
          (fun h => h != "../")) ∧
    (findList isPreTag [Node.elem "pre" [] [Node.elem "a" [("href", "../")] []]] = none →
      ∃ r, download_latest_files "http://h/d" "dest" 5
          ⟨true, false, false,
            .ok [Node.elem "pre" [] [Node.elem "a" [("href", "../")] []]],
            fun _ => .reqError, fun _ => false⟩ [] = .ok r ∧
        r.bodyReqs = [] ∧ r.files = [] ∧ r.downloadedCount = 0 ∧
        (Level.warning, LogEvent.noPre) ∈ r.log) ∧
    (∀ pre, findList isPreTag [Node.elem "pre" [] [Node.elem "a" [("href", "../")] []]] =
        some pre → extractLinks pre = [] →
      ∃ r, download_latest_files "http://h/d" "dest" 5
          ⟨true, false, false,
            .ok [Node.elem "pre" [] [Node.elem "a" [("href", "../")] []]],
            fun _ => .reqError, fun _ => false⟩ [] = .ok r ∧
        r.bodyReqs = [] ∧ r.files = [] ∧ r.downloadedCount = 0 ∧
        (Level.warning, LogEvent.noLinks) ∈ r.log) :=
  c6_parse "http://h/d" "dest" 5
    ⟨true, false, false, .ok [Node.elem "pre" [] [Node.elem "a" [("href", "../")] []]],
      fun _ => .reqError, fun _ => false⟩ []
    [Node.elem "pre" [] [Node.elem "a" [("href", "../")] []]] rfl rfl rfl

/-- Claim C7, counterexample: the page lists `f.rii` twice and every body GET
dies mid-stream after one chunk; the run completes with zero successful
downloads, yet a file `f.rii` exists (created on open, holding the partial
chunk) and the second write found it already existing — it truncated and
overwrote a file, so neither "nothing is ever overwritten" nor "the file
comes into existence only once fully written" holds. -/
theorem c7_counterexample :
    (download_latest_files "http://h/d" "dest" 5 dupEnv []).toOption.map
      (fun r => (r.overwrote, r.downloadedCount, namesOf r.files)) =
      some (true, 0, ["f.rii"]) := by
  rfl

/-- Claim C7, amended: as long as the candidate list repeats no filename, no
write of the run targets an existing file, so nothing is overwritten; files
are however created when writing begins, so a download failing mid-body
leaves a partial file behind (see the counterexample). -/
theorem c7_no_overwrite (base folder : String) (n : Nat) (env : Env)
    (files0 : List (String × Content)) (hnd : (candidatesOf env n).Nodup) :
    (download_latest_files base folder n env files0).toOption.map DlState.overwrote ≠
      some true := by
  intro hcontra
  cases hdl : download_latest_files base folder n env files0 with
  | error e =>
    rw [hdl] at hcontra
    simp [Except.toOption] at hcontra
  | ok r =>
    rw [hdl] at hcontra
    simp only [Except.toOption, Option.map_some] at hcontra
    injection hcontra with hcontra
    rw [download_no_overwrite_aux base folder n env files0 r hnd hdl] at hcontra
    exact Bool.noConfusion hcontra

/-- Claim C7, witness of the amended statement at the specification's sample
page with duplicate-free candidates. -/
theorem c7_no_overwrite_witness :
    (download_latest_files "http://h/d" "dest" 1 sampleEnv []).toOption.map
      DlState.overwrote ≠ some true :=
  c7_no_overwrite "http://h/d" "dest" 1 sampleEnv [] (by decide)

/-- Claim C5: when a target's listing fetch raises (transport error or
non-2xx via raise_for_status), that target's sync returns normally after
logging an error, with no body requests, no writes and nothing downloaded,
and a main loop over otherwise safe targets still processes every configured
target. -/
theorem c5_listing_error (targets : List (String × String)) (u f : String) (n : Nat)
    (envOf : String × String → Env × CleanEnv)
    (worldOf : String → List (String × Content))
    (hmem : (u, f) ∈ targets)
    (hsafe : ∀ t ∈ targets, SafeEnv (envOf t).1)
    (hld : (envOf (u, f)).1.listdirFails = false)
    (hpage : (envOf (u, f)).1.page = .error ()) :
    ∃ res, runMain targets n envOf worldOf = .ok res ∧
      res.length = targets.length ∧
      (∃ o, (o, (u, f)) ∈ res.zip targets) ∧
      ∀ p ∈ res.zip targets, p.2 = (u, f) →
        p.1.sync.bodyReqs = [] ∧ p.1.sync.downloadedCount = 0 ∧
        p.1.sync.files = (if (envOf (u, f)).1.destExists then worldOf f else []) ∧
        (Level.error, LogEvent.fetchError) ∈ p.1.sync.log := by
  obtain ⟨res, hres⟩ :=
    runTargets_ok_of_safe n (n * targets.length) envOf worldOf targets hsafe
  obtain ⟨hlen, hall⟩ := runTargets_zip n (n * targets.length) envOf worldOf targets res hres
  refine ⟨res, hres, hlen, exists_mem_zip_right res targets (u, f) hlen hmem, ?_⟩
  intro p hp hpt
  obtain ⟨hu, hf2, hk, hdl, hcl⟩ :=
    runTarget_ok_elim n (n * targets.length) envOf worldOf p.2 p.1 (hall p hp)
  rw [hpt] at hdl
  dsimp only at hdl
  obtain ⟨r, hr, hfiles, hreqs, hcount, hlog⟩ := download_page_error u f n
    (envOf (u, f)).1 (worldOf f) ((hsafe (u, f) hmem).1) hld hpage
  rw [hr] at hdl
  injection hdl with he
  exact ⟨he ▸ hreqs, he ▸ hcount, he ▸ hfiles, he ▸ hlog⟩

/-- Claim C5, witness: a single configured target whose listing fetch fails. -/
theorem c5_listing_error_witness :
    ∃ res, runMain [("u", "d")] 3 envOfErr worldOfX = .ok res ∧
      res.length = List.length [("u", "d")] ∧
      (∃ o, (o, ("u", "d")) ∈ res.zip [("u", "d")]) ∧
      ∀ p ∈ res.zip [("u", "d")], p.2 = ("u", "d") →
        p.1.sync.bodyReqs = [] ∧ p.1.sync.downloadedCount = 0 ∧
        p.1.sync.files = (if (envOfErr ("u", "d")).1.destExists then worldOfX "d" else []) ∧
        (Level.error, LogEvent.fetchError) ∈ p.1.sync.log :=
  c5_listing_error [("u", "d")] "u" "d" 3 envOfErr worldOfX
    (List.mem_singleton.mpr rfl) (fun _ _ => ⟨Or.inl rfl, fun _ => rfl⟩) rfl rfl

/-- Claim C8: every completed main run hands retention pruning the keep-count
download-count × number-of-targets, and runs it for each target on that
target's destination folder immediately after the target's download phase,
on exactly the files that phase produced. -/
theorem c8_keep_count (targets : List (String × String)) (n : Nat)
    (envOf : String × String → Env × CleanEnv)
    (worldOf : String → List (String × Content)) (res : List TargetOutcome)
    (hrun : runMain targets n envOf worldOf = .ok res) :
    res.length = targets.length ∧
    ∀ p ∈ res.zip targets,
      p.1.keepUsed = n * targets.length ∧ p.1.url = p.2.1 ∧ p.1.folder = p.2.2 ∧
      download_latest_files p.2.1 p.2.2 n (envOf p.2).1 (worldOf p.2.2) = .ok p.1.sync ∧
      p.1.cleanSt = clean_old_files p.2.2 defaultPatterns (n * targets.length)
        (envOf p.2).2 p.1.sync.files := by
  obtain ⟨hlen, hall⟩ := runTargets_zip n (n * targets.length) envOf worldOf targets res hrun
  refine ⟨hlen, fun p hp => ?_⟩
  obtain ⟨hu, hf2, hk, hdl, hcl⟩ :=
    runTarget_ok_elim n (n * targets.length) envOf worldOf p.2 p.1 (hall p hp)
  exact ⟨hk, hu, hf2, hdl, hcl⟩

/-- Claim C8, witness: one configured target, download count 2, keep-count
2 × 1. -/
theorem c8_keep_count_witness :
    ([⟨"u", "d", 2, dlErrState,
        clean_old_files "d" defaultPatterns 2 cleanEnvLen dlErrState.files⟩] :
      List TargetOutcome).length = List.length [("u", "d")] ∧
    ∀ p ∈ ([⟨"u", "d", 2, dlErrState,
        clean_old_files "d" defaultPatterns 2 cleanEnvLen dlErrState.files⟩] :
      List TargetOutcome).zip [("u", "d")],
      p.1.keepUsed = 2 * List.length [("u", "d")] ∧ p.1.url = p.2.1 ∧ p.1.folder = p.2.2 ∧
      download_latest_files p.2.1 p.2.2 2 (envOfErr p.2).1 (worldOfX p.2.2) = .ok p.1.sync ∧
      p.1.cleanSt = clean_old_files p.2.2 defaultPatterns (2 * List.length [("u", "d")])
        (envOfErr p.2).2 p.1.sync.files :=
  c8_keep_count [("u", "d")] 2 envOfErr worldOfX _ (by rfl)

/-- Claim C10: the download phase only adds files — every filename present in
the destination when the sync starts is still present when it ends — and
retention pruning creates no file and deletes only filenames starting with
one of its patterns. -/
theorem c10_frame (base folder : String) (n : Nat) (env : Env)
    (files0 : List (String × Content)) (r : DlState)
    (cfolder : String) (patterns : List String) (k : Nat) (cenv : CleanEnv)
    (cfiles : List (String × Content))
    (hde : env.destExists = true)
    (hr : download_latest_files base folder n env files0 = .ok r) :
    (∀ x ∈ namesOf files0, x ∈ namesOf r.files) ∧
    (∀ x ∈ namesOf (clean_old_files cfolder patterns k cenv cfiles).files,
      x ∈ namesOf cfiles) ∧
    (∀ x ∈ namesOf cfiles,
      x ∉ namesOf (clean_old_files cfolder patterns k cenv cfiles).files →
      ∃ p ∈ patterns, pyStartsWith x p = true) := by
  refine ⟨download_names_mono base folder n env files0 r hde hr, ?_, ?_⟩
  · simp only [clean_old_files]
    split
    · exact fun x hx => hx
    · exact fun x hx =>
        (cleanFold_frame cenv k patterns ⟨cfiles, [], [(.info, .startClean)]⟩).1 x hx
  · simp only [clean_old_files]
    split
    · exact fun x hx hnx => absurd hx hnx
    · exact fun x hx hnx =>
        (cleanFold_frame cenv k patterns ⟨cfiles, [], [(.info, .startClean)]⟩).2 x hx hnx

/-- Claim C10, witness: a failed-fetch sync keeps the folder intact, and a
pruning pass over `rii` on a two-file folder never touches `zz`. -/
theorem c10_frame_witness :
    (∀ x ∈ namesOf [("x", [])], x ∈ namesOf dlErrState.files) ∧
    (∀ x ∈ namesOf (clean_old_files "cd" ["rii"] 2 cleanEnvLen
        [("rii_a", []), ("zz", [])]).files, x ∈ namesOf [("rii_a", []), ("zz", [])]) ∧
    (∀ x ∈ namesOf [("rii_a", []), ("zz", [])],
      x ∉ namesOf (clean_old_files "cd" ["rii"] 2 cleanEnvLen
        [("rii_a", []), ("zz", [])]).files →
      ∃ p ∈ ["rii"], pyStartsWith x p = true) :=
  c10_frame "u" "d" 1 envErr [("x", [])] dlErrState "cd" ["rii"] 2 cleanEnvLen
    [("rii_a", []), ("zz", [])] rfl (by rfl)

end VlRtarif
